import Mathlib

/-!
Verification of the Igra KAS bridge core (payload codec, UTXO selection,
transaction builder, nonce miner, orchestrator reporting) against its
specification.  Definitions are shallow embeddings of the TypeScript source:
JavaScript numbers/bigints are modeled as Nat/Int with explicit wrapping where
the source wraps, IEEE-754 doubles are modeled as rationals together with an
explicit round-to-nearest-even rounding function, and fallible code returns
Except values.
-/

deriving instance DecidableEq for Except

/-! ## Payload codec (src: bridge module)

The source validates L2 addresses with the regular expression
0x[a-fA-F0-9] repeated 40 times, converts hex strings to bytes with
parseInt(pair, 16) stored into a Uint8Array (so an unparseable pair becomes
NaN which the typed array coerces to 0, and a pair whose second character is
invalid parses as its first digit only), and renders bytes with
toString(16).padStart(2, 0), which is lowercase.
-/

/-- Value of a single hex digit accepted by parseInt with radix 16
(0-9, a-f, A-F), none otherwise. -/
def hexVal? (c : Char) : Option ℕ :=
  if '0' ≤ c ∧ c ≤ '9' then some (c.toNat - 48)
  else if 'a' ≤ c ∧ c ≤ 'f' then some (c.toNat - 87)
  else if 'A' ≤ c ∧ c ≤ 'F' then some (c.toNat - 55)
  else none

/-- JavaScript parseInt(two-char string, 16) followed by the Uint8Array store:
NaN (first char invalid) is coerced to 0; if only the second char is invalid,
parseInt stops after the first digit. -/
def parseHexPair (c₁ c₂ : Char) : ℕ :=
  match hexVal? c₁, hexVal? c₂ with
  | none, _ => 0
  | some d₁, none => d₁
  | some d₁, some d₂ => 16 * d₁ + d₂

/-- Split a character list into consecutive pairs.  An odd-length input yields
none: the source would construct a Uint8Array with a fractional length, which
throws a RangeError. -/
def toBytePairs : List Char → Option (List (Char × Char))
  | [] => some []
  | [_] => none
  | c₁ :: c₂ :: rest => (toBytePairs rest).map fun l => (c₁, c₂) :: l

/-- Source hexToBytes: bytes[i] = parseInt(hex.substr(2i, 2), 16) into a
Uint8Array of length hex.length / 2. -/
def hexToBytes (s : String) : Option (List ℕ) :=
  (toBytePairs s.data).map (List.map fun p => parseHexPair p.1 p.2)

/-- Lowercase hex digit character, as produced by Number.toString(16). -/
def hexDigitChar (n : ℕ) : Char :=
  if n < 10 then Char.ofNat (48 + n) else Char.ofNat (87 + n)

/-- Two lowercase hex characters of one byte:
b.toString(16).padStart(2, 0) for b below 256 (Uint8Array entries). -/
def byteToHex (b : ℕ) : List Char :=
  [hexDigitChar (b / 16), hexDigitChar (b % 16)]

/-- Source payloadToHex: map each byte to two lowercase hex chars and join. -/
def payloadToHex (payload : List ℕ) : String :=
  String.mk (payload.map byteToHex).flatten

/-- Source isValidL2Address: the address matches 0x followed by exactly 40 hex
digits (either case). -/
def isValidL2Address (s : String) : Bool :=
  match s.data with
  | c₀ :: c₁ :: rest =>
    c₀ == '0' && c₁ == 'x' && rest.length == 40 && rest.all fun c => (hexVal? c).isSome
  | _ => false

/-- CONFIG.ENTRY_TX payload tag byte: version nibble 0x9, tx-type nibble 0x2. -/
def PAYLOAD_PREFIX_BYTE : ℕ := 0x92

/-- Source bigintToBytes8LE: eight little-endian bytes, each value & 0xff then
value >>= 8n.  The source bigint is applied only to nonnegative amounts, on
which the bigint operations agree with Nat division and remainder. -/
def bigintToBytes8LE (value : ℕ) : List ℕ :=
  (List.range 8).map fun i => value / 256 ^ i % 256

/-- Source uint32ToBytes4BE: four big-endian bytes via JavaScript signed
32-bit shifts and masks.  For any input, the ToInt32 coercion makes the result
the big-endian bytes of value mod 2^32. -/
def uint32ToBytes4BE (value : ℕ) : List ℕ :=
  let w := value % 2 ^ 32
  [w / 2 ^ 24 % 256, w / 2 ^ 16 % 256, w / 2 ^ 8 % 256, w % 256]

/-- Source constructEntryPayload: validate the address, strip 0x, parse the 40
hex digits into 20 bytes, and lay out tag byte, address bytes, 8 little-endian
amount bytes and 4 big-endian nonce bytes (the Uint8Array set calls at offsets
0, 1, 21, 29 amount to this concatenation).  The unreachable none branch of
hexToBytes (a valid address has even hex length) reuses the length error. -/
def constructEntryPayload (l2Address : String) (amountSompi : ℕ) (nonce : ℕ) :
    Except String (List ℕ) :=
  if isValidL2Address l2Address then
    match hexToBytes (String.mk (l2Address.data.drop 2)) with
    | some addressBytes =>
      if addressBytes.length = 20 then
        .ok (PAYLOAD_PREFIX_BYTE ::
          (addressBytes ++ (bigintToBytes8LE amountSompi ++ uint32ToBytes4BE nonce)))
      else .error "L2 address must be 20 bytes"
    | none => .error "L2 address must be 20 bytes"
  else .error ("Invalid L2 address: " ++ l2Address)

/-- Result record of decodeEntryPayload.  The source field named after the tag
byte is called pfx here because its original name is a reserved word in Lean.
The derived display-only field amountKas (a double quotient) is not modeled;
no claim mentions it.  The nonce is an Int because the source decodes it with
signed 32-bit JavaScript shifts. -/
structure DecodedEntryPayload where
  pfx : String
  l2Address : String
  amountSompi : ℕ
  nonce : ℤ
deriving DecidableEq

/-- Little-endian recomposition of a byte list; the source accumulates with
bitwise or of disjoint shifted bytes, which equals this sum since every entry
produced by hexToBytes is below 256. -/
def bytesToNatLE : List ℕ → ℕ
  | [] => 0
  | b :: rest => b + 256 * bytesToNatLE rest

/-- JavaScript ToInt32: interpret a value mod 2^32 as a signed 32-bit
integer. -/
def toInt32 (n : ℕ) : ℤ :=
  if n % 2 ^ 32 < 2 ^ 31 then ((n % 2 ^ 32 : ℕ) : ℤ)
  else ((n % 2 ^ 32 : ℕ) : ℤ) - 2 ^ 32

/-- Source decodeEntryPayload: parse the hex string into bytes, reject any
length other than 33 bytes, then read tag byte, address (re-rendered lowercase
with a 0x prefix), little-endian amount from bytes 21 to 28, and the
big-endian nonce from bytes 29 to 32, combined with signed 32-bit shifts and
ors (hence toInt32). -/
def decodeEntryPayload (payloadHex : String) : Except String DecodedEntryPayload :=
  match hexToBytes payloadHex with
  | none => .error "invalid typed array length"
  | some bytes =>
    if bytes.length = 33 then
      let nb := (bytes.drop 29).take 4
      .ok { pfx := String.mk (byteToHex (bytes.getD 0 0))
          , l2Address := "0x" ++ String.mk (((bytes.drop 1).take 20).map byteToHex).flatten
          , amountSompi := bytesToNatLE ((bytes.drop 21).take 8)
          , nonce := toInt32
              (nb.getD 0 0 * 2 ^ 24 + nb.getD 1 0 * 2 ^ 16 + nb.getD 2 0 * 2 ^ 8 + nb.getD 3 0) }
    else .error "Invalid payload length"

/-- The lowercase address string denoting a given byte list, as both the
encoder input (when the user supplies lowercase hex) and the decoder output. -/
def addrOfBytes (bytes : List ℕ) : String :=
  "0x" ++ String.mk ((bytes.map byteToHex).flatten)

/-! ## Codec lemmas -/

lemma hexVal?_hexDigitChar {d : ℕ} (hd : d < 16) : hexVal? (hexDigitChar d) = some d := by
  interval_cases d <;> decide

lemma parseHexPair_byteToHex {b : ℕ} (hb : b < 256) :
    parseHexPair (hexDigitChar (b / 16)) (hexDigitChar (b % 16)) = b := by
  have h1 : b / 16 < 16 := by omega
  have h2 : b % 16 < 16 := by omega
  simp [parseHexPair, hexVal?_hexDigitChar h1, hexVal?_hexDigitChar h2]
  omega

lemma toBytePairs_flatten (bs : List ℕ) :
    toBytePairs ((bs.map byteToHex).flatten) =
      some (bs.map fun b => (hexDigitChar (b / 16), hexDigitChar (b % 16))) := by
  induction bs with
  | nil => rfl
  | cons b rest ih => simp [byteToHex, toBytePairs, ih]

lemma hexToBytes_payloadToHex {bs : List ℕ} (h : ∀ b ∈ bs, b < 256) :
    hexToBytes (payloadToHex bs) = some bs := by
  have h2 := toBytePairs_flatten bs
  simp only [hexToBytes, payloadToHex, h2, Option.map_some', Option.some.injEq, List.map_map]
  exact (List.map_congr_left fun b hb => parseHexPair_byteToHex (h b hb)).trans (List.map_id bs)

lemma bigintToBytes8LE_eq (v : ℕ) :
    bigintToBytes8LE v =
      [v % 256, v / 256 % 256, v / 256 ^ 2 % 256, v / 256 ^ 3 % 256,
       v / 256 ^ 4 % 256, v / 256 ^ 5 % 256, v / 256 ^ 6 % 256, v / 256 ^ 7 % 256] := by
  rw [bigintToBytes8LE, show List.range 8 = [0, 1, 2, 3, 4, 5, 6, 7] from rfl]
  norm_num

lemma bigintToBytes8LE_length (v : ℕ) : (bigintToBytes8LE v).length = 8 := by
  rw [bigintToBytes8LE_eq]; rfl

lemma bigintToBytes8LE_lt (v : ℕ) : ∀ b ∈ bigintToBytes8LE v, b < 256 := by
  rw [bigintToBytes8LE_eq]
  intro b hb
  simp only [List.mem_cons, List.not_mem_nil, or_false] at hb
  rcases hb with h | h | h | h | h | h | h | h <;> subst h <;> exact Nat.mod_lt _ (by norm_num)

lemma bytesToNatLE_bigintToBytes8LE {v : ℕ} (h : v < 2 ^ 64) :
    bytesToNatLE (bigintToBytes8LE v) = v := by
  rw [bigintToBytes8LE_eq]
  simp only [bytesToNatLE]
  norm_num
  omega

lemma uint32ToBytes4BE_eq_of_lt {v : ℕ} (h : v < 2 ^ 32) :
    uint32ToBytes4BE v = [v / 2 ^ 24 % 256, v / 2 ^ 16 % 256, v / 2 ^ 8 % 256, v % 256] := by
  simp [uint32ToBytes4BE]
  omega

lemma uint32ToBytes4BE_length (v : ℕ) : (uint32ToBytes4BE v).length = 4 := rfl

lemma uint32ToBytes4BE_lt (v : ℕ) : ∀ b ∈ uint32ToBytes4BE v, b < 256 := by
  intro b hb
  simp only [uint32ToBytes4BE, List.mem_cons, List.not_mem_nil, or_false] at hb
  rcases hb with h | h | h | h <;> subst h
  · exact Nat.mod_lt _ (by norm_num)
  · exact Nat.mod_lt _ (by norm_num)
  · exact Nat.mod_lt _ (by norm_num)
  · exact Nat.lt_of_lt_of_le (Nat.mod_lt _ (by norm_num)) (by norm_num)

lemma toBytePairs_even : ∀ (l : List Char), l.length % 2 = 0 →
    ∃ ps, toBytePairs l = some ps ∧ 2 * ps.length = l.length
  | [], _ => ⟨[], rfl, rfl⟩
  | [_], h => by simp at h
  | c₁ :: c₂ :: rest, h => by
    have h' : rest.length % 2 = 0 := by simp only [List.length_cons] at h; omega
    obtain ⟨ps, hps, hlen⟩ := toBytePairs_even rest h'
    refine ⟨(c₁, c₂) :: ps, by simp [toBytePairs, hps], ?_⟩
    simp only [List.length_cons]
    omega

lemma flatten_byteToHex_length (A : List ℕ) :
    ((A.map byteToHex).flatten).length = 2 * A.length := by
  induction A with
  | nil => rfl
  | cons b rest ih => simp [byteToHex, ih]; omega

lemma flatten_byteToHex_hex {A : List ℕ} (h : ∀ b ∈ A, b < 256) :
    ∀ c ∈ (A.map byteToHex).flatten, (hexVal? c).isSome = true := by
  intro c hc
  rw [List.mem_flatten] at hc
  obtain ⟨l, hl, hcl⟩ := hc
  rw [List.mem_map] at hl
  obtain ⟨b, hbA, rfl⟩ := hl
  have hb := h b hbA
  simp only [byteToHex, List.mem_cons, List.not_mem_nil, or_false] at hcl
  rcases hcl with rfl | rfl
  · rw [hexVal?_hexDigitChar (show b / 16 < 16 by omega)]; rfl
  · rw [hexVal?_hexDigitChar (show b % 16 < 16 by omega)]; rfl

lemma addrOfBytes_data (A : List ℕ) :
    (addrOfBytes A).data = '0' :: 'x' :: (A.map byteToHex).flatten := by
  simp [addrOfBytes, String.data_append]

lemma isValidL2Address_addrOfBytes {A : List ℕ} (hA : A.length = 20)
    (h : ∀ b ∈ A, b < 256) : isValidL2Address (addrOfBytes A) = true := by
  simp only [isValidL2Address, addrOfBytes_data]
  simp [flatten_byteToHex_length, hA, List.all_eq_true.mpr (flatten_byteToHex_hex h),
    -List.length_flatten]

lemma isValidL2Address_spec {s : String} (hv : isValidL2Address s = true) :
    ∃ rest, s.data = '0' :: 'x' :: rest ∧ rest.length = 40 ∧
      ∀ c ∈ rest, (hexVal? c).isSome = true := by
  rcases hd : s.data with _ | ⟨c₀, tail⟩
  · simp [isValidL2Address, hd] at hv
  · rcases tail with _ | ⟨c₁, rest⟩
    · simp [isValidL2Address, hd] at hv
    · simp only [isValidL2Address, hd, Bool.and_eq_true, beq_iff_eq, List.all_eq_true] at hv
      obtain ⟨⟨⟨h0, h1⟩, hlen⟩, hall⟩ := hv
      subst h0; subst h1
      exact ⟨rest, rfl, by simpa using hlen, hall⟩

/-- Statement of the fixed payload layout produced by constructEntryPayload on
a valid address, a 64-bit amount and a 32-bit nonce: the 0x92 tag byte is
followed by the 20 raw address bytes, the 8 little-endian amount bytes and the
4 big-endian nonce bytes, 33 bytes in all, including the two concrete
endianness examples of the specification. -/
def C2Prop (addr : String) (amt nonce : ℕ) : Prop :=
  ∃ A, hexToBytes (String.mk (addr.data.drop 2)) = some A ∧ A.length = 20 ∧
    constructEntryPayload addr amt nonce =
      .ok (0x92 :: (A ++ (bigintToBytes8LE amt ++ uint32ToBytes4BE nonce))) ∧
    (0x92 :: (A ++ (bigintToBytes8LE amt ++ uint32ToBytes4BE nonce))).length = 33 ∧
    bigintToBytes8LE amt =
      [amt % 256, amt / 256 % 256, amt / 256 ^ 2 % 256, amt / 256 ^ 3 % 256,
       amt / 256 ^ 4 % 256, amt / 256 ^ 5 % 256, amt / 256 ^ 6 % 256, amt / 256 ^ 7 % 256] ∧
    bytesToNatLE (bigintToBytes8LE amt) = amt ∧
    uint32ToBytes4BE nonce =
      [nonce / 2 ^ 24 % 256, nonce / 2 ^ 16 % 256, nonce / 2 ^ 8 % 256, nonce % 256] ∧
    bigintToBytes8LE 0x0000000077359400 = [0x00, 0x94, 0x35, 0x77, 0x00, 0x00, 0x00, 0x00] ∧
    uint32ToBytes4BE 0x00000001 = [0x00, 0x00, 0x00, 0x01]

/-- Claim C2: for every valid L2 address, unsigned 64-bit amount and unsigned
32-bit nonce, constructEntryPayload returns exactly 33 bytes: byte 0 is 0x92,
bytes 1 to 20 are the raw address bytes, bytes 21 to 28 are the amount in
little-endian order (so that 0x0000000077359400 yields 00 94 35 77 00 00 00
00), and bytes 29 to 32 are the nonce in big-endian order (so that 0x00000001
yields 00 00 00 01). -/
theorem C2_payload_layout (addr : String) (amt nonce : ℕ)
    (hv : isValidL2Address addr = true) (ha : amt < 2 ^ 64) (hn : nonce < 2 ^ 32) :
    C2Prop addr amt nonce := by
  obtain ⟨rest, haddr, hrest40, hhex⟩ := isValidL2Address_spec hv
  obtain ⟨ps, hps, hpslen⟩ := toBytePairs_even rest (by omega)
  refine ⟨ps.map (fun p => parseHexPair p.1 p.2), ?_, ?_, ?_, ?_, ?_, ?_, ?_, ?_, ?_⟩
  · show (toBytePairs (String.mk (addr.data.drop 2)).data).map _ = _
    rw [show (String.mk (addr.data.drop 2)).data = addr.data.drop 2 from rfl, haddr]
    rw [show ('0' :: 'x' :: rest).drop 2 = rest from rfl, hps]
    rfl
  · simp only [List.length_map]; omega
  · have hxb : hexToBytes (String.mk (addr.data.drop 2)) =
        some (ps.map (fun p => parseHexPair p.1 p.2)) := by
      show (toBytePairs (String.mk (addr.data.drop 2)).data).map _ = _
      rw [show (String.mk (addr.data.drop 2)).data = addr.data.drop 2 from rfl, haddr]
      rw [show ('0' :: 'x' :: rest).drop 2 = rest from rfl, hps]
      rfl
    have hlen : (ps.map (fun p => parseHexPair p.1 p.2)).length = 20 := by
      simp only [List.length_map]; omega
    simp [constructEntryPayload, hv, hxb, hlen, PAYLOAD_PREFIX_BYTE]
  · simp only [List.length_cons, List.length_append, List.length_map,
      bigintToBytes8LE_length, uint32ToBytes4BE_length]
    omega
  · exact bigintToBytes8LE_eq amt
  · exact bytesToNatLE_bigintToBytes8LE ha
  · exact uint32ToBytes4BE_eq_of_lt hn
  · decide
  · decide

/-- Witness for claim C2 at the documented end-to-end example: the address
0x5f102e8aff08f647681de13009ab313fdc55fba8 with amount 2000000000 sompi
(20 KAS) and nonce 1. -/
theorem C2_witness :
    isValidL2Address "0x5f102e8aff08f647681de13009ab313fdc55fba8" = true ∧
    2000000000 < 2 ^ 64 ∧ 1 < 2 ^ 32 ∧
    C2Prop "0x5f102e8aff08f647681de13009ab313fdc55fba8" 2000000000 1 :=
  ⟨by decide, by decide, by decide,
    C2_payload_layout _ _ _ (by decide) (by decide) (by decide)⟩

/-- Claim C10: decodeEntryPayload does not validate hex digits: the 66
character string of letter z decodes successfully to an all-zero tag byte,
address, amount and nonce, because every unparseable byte pair is coerced to
zero before the 33-byte length check. -/
theorem C10_decode_accepts_nonhex :
    decodeEntryPayload (String.mk (List.replicate 66 'z')) =
      .ok ⟨"00", "0x0000000000000000000000000000000000000000", 0, 0⟩ := by
  decide

/-- Statement of the corrected codec round trip: encoding a lowercase-hex
address (given by its 20 raw bytes), a 64-bit amount and a nonce below 2^31,
then hex-rendering and decoding, recovers exactly the address string, the
amount and the nonce. -/
def C1Prop (A : List ℕ) (amt nonce : ℕ) : Prop :=
  isValidL2Address (addrOfBytes A) = true ∧
  ∃ p, constructEntryPayload (addrOfBytes A) amt nonce = .ok p ∧
    decodeEntryPayload (payloadToHex p) =
      .ok ⟨"92", addrOfBytes A, amt, (nonce : ℤ)⟩

/-- Claim C1 (amended): the codec round trip decode-of-encode recovers the
address, amount and nonce exactly, provided the address is written in
lowercase hex and the nonce is below 2^31.  (As stated over all valid
addresses and all 32-bit nonces the claim fails: the decoder lowercases the
address and returns a negative nonce for nonces at or above 2^31; see the
counterexample.) -/
theorem C1_roundtrip_amended (A : List ℕ) (amt nonce : ℕ) (hA : A.length = 20)
    (h256 : ∀ b ∈ A, b < 256) (ha : amt < 2 ^ 64) (hn : nonce < 2 ^ 31) :
    C1Prop A amt nonce := by
  have hv := isValidL2Address_addrOfBytes hA h256
  refine ⟨hv, ?_⟩
  have hxb : hexToBytes (String.mk ((addrOfBytes A).data.drop 2)) = some A := by
    rw [addrOfBytes_data]
    exact hexToBytes_payloadToHex h256
  refine ⟨0x92 :: (A ++ (bigintToBytes8LE amt ++ uint32ToBytes4BE nonce)), ?_, ?_⟩
  · simp [constructEntryPayload, hv, hxb, hA, PAYLOAD_PREFIX_BYTE]
  · have hplt : ∀ b ∈ (0x92 : ℕ) :: (A ++ (bigintToBytes8LE amt ++ uint32ToBytes4BE nonce)),
        b < 256 := by
      intro b hb
      rcases List.mem_cons.mp hb with rfl | hb'
      · norm_num
      · rcases List.mem_append.mp hb' with h | h
        · exact h256 b h
        · rcases List.mem_append.mp h with h | h
          · exact bigintToBytes8LE_lt amt b h
          · exact uint32ToBytes4BE_lt nonce b h
    have hxb2 := hexToBytes_payloadToHex hplt
    have hplen : ((0x92 : ℕ) :: (A ++ (bigintToBytes8LE amt ++ uint32ToBytes4BE nonce))).length
        = 33 := by
      simp only [List.length_cons, List.length_append, bigintToBytes8LE_length,
        uint32ToBytes4BE_length, hA]
    have ht20 : (A ++ (bigintToBytes8LE amt ++ uint32ToBytes4BE nonce)).take 20 = A :=
      List.take_left' hA
    have hd21 : ((0x92 : ℕ) :: (A ++ (bigintToBytes8LE amt ++ uint32ToBytes4BE nonce))).drop 21
        = bigintToBytes8LE amt ++ uint32ToBytes4BE nonce := by
      rw [show (0x92 : ℕ) :: (A ++ (bigintToBytes8LE amt ++ uint32ToBytes4BE nonce)) =
        ((0x92 : ℕ) :: A) ++ (bigintToBytes8LE amt ++ uint32ToBytes4BE nonce) from rfl]
      exact List.drop_left' (by simp [hA])
    have ht8 : (bigintToBytes8LE amt ++ uint32ToBytes4BE nonce).take 8 = bigintToBytes8LE amt :=
      List.take_left' (bigintToBytes8LE_length amt)
    have hd29 : ((0x92 : ℕ) :: (A ++ (bigintToBytes8LE amt ++ uint32ToBytes4BE nonce))).drop 29
        = uint32ToBytes4BE nonce := by
      rw [show (0x92 : ℕ) :: (A ++ (bigintToBytes8LE amt ++ uint32ToBytes4BE nonce)) =
        (((0x92 : ℕ) :: A) ++ bigintToBytes8LE amt) ++ uint32ToBytes4BE nonce by simp]
      exact List.drop_left' (by simp [hA, bigintToBytes8LE_length])
    have ht4 : (uint32ToBytes4BE nonce).take 4 = uint32ToBytes4BE nonce :=
      List.take_of_length_le (by rw [uint32ToBytes4BE_length])
    simp only [decodeEntryPayload, hxb2, hplen, if_pos, Except.ok.injEq,
      DecodedEntryPayload.mk.injEq]
    refine ⟨by rw [List.getD_cons_zero]; decide, ?_, ?_, ?_⟩
    · rw [show ((0x92 : ℕ) :: (A ++ (bigintToBytes8LE amt ++ uint32ToBytes4BE nonce))).drop 1 =
        A ++ (bigintToBytes8LE amt ++ uint32ToBytes4BE nonce) from rfl, ht20]
      rfl
    · rw [hd21, ht8]
      exact bytesToNatLE_bigintToBytes8LE ha
    · rw [hd29, ht4, uint32ToBytes4BE_eq_of_lt (show nonce < 2 ^ 32 by omega)]
      show toInt32 (nonce / 2 ^ 24 % 256 * 2 ^ 24 + nonce / 2 ^ 16 % 256 * 2 ^ 16 +
        nonce / 2 ^ 8 % 256 * 2 ^ 8 + nonce % 256) = (nonce : ℤ)
      rw [show nonce / 2 ^ 24 % 256 * 2 ^ 24 + nonce / 2 ^ 16 % 256 * 2 ^ 16 +
        nonce / 2 ^ 8 % 256 * 2 ^ 8 + nonce % 256 = nonce by omega]
      unfold toInt32
      rw [Nat.mod_eq_of_lt (show nonce < 2 ^ 32 by omega)]
      rw [if_pos hn]

/-- Witness for claim C1 at the 20-byte address 0xabab...ab, amount 5,
nonce 7. -/
theorem C1_witness :
    (List.replicate 20 171).length = 20 ∧ (∀ b ∈ List.replicate 20 171, b < 256) ∧
    5 < 2 ^ 64 ∧ 7 < 2 ^ 31 ∧ C1Prop (List.replicate 20 171) 5 7 :=
  ⟨by decide, by decide, by decide, by decide,
    C1_roundtrip_amended _ _ _ (by decide) (by decide) (by decide) (by decide)⟩

/-- Counterexample to claim C1 as stated: for the valid uppercase address
0xAAA...A and the 32-bit nonce 2^31 = 2147483648, decoding the encoded payload
returns the lowercased address and the negative nonce -2147483648, not the
encoded address and nonce. -/
theorem C1_counterexample :
    (constructEntryPayload "0xAAAAAAAAAAAAAAAAAAAAAAAAAAAAAAAAAAAAAAAA" 5 2147483648).toOption.bind
        (fun p => (decodeEntryPayload (payloadToHex p)).toOption) =
      some ⟨"92", "0xaaaaaaaaaaaaaaaaaaaaaaaaaaaaaaaaaaaaaaaa", 5, -2147483648⟩ ∧
    "0xaaaaaaaaaaaaaaaaaaaaaaaaaaaaaaaaaaaaaaaa" ≠ "0xAAAAAAAAAAAAAAAAAAAAAAAAAAAAAAAAAAAAAAAA" ∧
    (-2147483648 : ℤ) ≠ (2147483648 : ℤ) ∧
    isValidL2Address "0xAAAAAAAAAAAAAAAAAAAAAAAAAAAAAAAAAAAAAAAA" = true ∧
    (2147483648 : ℕ) < 2 ^ 32 :=
  ⟨by decide, by decide, by decide, by decide, by decide⟩

/-! ## UTXO selection and transaction builder (src: tx-miner module)

buildEntryTransaction accumulates UTXOs in the order supplied until the
running total reaches amount plus a 10000-sompi fee buffer, throws an
insufficient-funds error (reporting both totals) when the selected total is
below the amount, and assembles the unsigned transaction: output 0 pays the
Entry address exactly amountSompi, and a change output back to the sender is
appended only when change = total - amount - estimatedFee is positive.  The
locking-script derivation payToAddressScript lives in the external WASM SDK,
so it is a parameter here. -/

/-- A spendable output as returned by the ledger-query collaborator: outpoint
and amount.  The locking script of the entry is owned by the wallet side and
never read by the builder, so it is not modeled. -/
structure UtxoEntry where
  transactionId : String
  index : ℕ
  amount : ℕ
deriving DecidableEq

/-- An input of the candidate transaction; the source also stores the whole
UtxoEntry for the signer. -/
structure TxInput where
  previousTransactionId : String
  previousIndex : ℕ
  signatureScript : String
  sequence : ℕ
  sigOpCount : ℕ
  utxo : UtxoEntry
deriving DecidableEq

/-- An output: value and locking script.  The script type is abstract because
payToAddressScript is an external capability. -/
structure TxOutput (σ : Type) where
  value : ℤ
  scriptPublicKey : σ
deriving DecidableEq

/-- The candidate unsigned transaction assembled by the builder. -/
structure KaspaTransaction (σ : Type) where
  version : ℕ
  inputs : List TxInput
  outputs : List (TxOutput σ)
  lockTime : ℕ
  subnetworkId : String
  gas : ℕ
  payload : String
deriving DecidableEq

/-- Builder failures: the insufficient-funds throw carries the two amounts the
source interpolates into its message (Have and Need), and payload construction
failures are propagated. -/
inductive BuildError where
  | insufficientFunds (haveSompi needSompi : ℕ)
  | invalidPayload (msg : String)
deriving DecidableEq

/-- Source local constant feeBuffer = 10000n inside the selection loop. -/
def feeBuffer : ℕ := 10000

/-- Source local constant estimatedFee = 10000n used for the change. -/
def estimatedFee : ℕ := 10000

/-- The selection loop of buildEntryTransaction: walk the UTXOs in the order
supplied, accumulating amounts; break as soon as the running total reaches the
target (amount + feeBuffer).  Returns the selected entries and the final
total. -/
def selectLoop (target : ℕ) : ℕ → List UtxoEntry → List UtxoEntry × ℕ
  | total, [] => ([], total)
  | total, u :: rest =>
    let t := total + u.amount
    if target ≤ t then ([u], t)
    else
      let r := selectLoop target t rest
      (u :: r.1, r.2)

/-- Sum of the amounts of a UTXO list. -/
def sumAmounts (l : List UtxoEntry) : ℕ := (l.map UtxoEntry.amount).sum

/-- Source buildEntryTransaction.  pay2addr stands for the external
payToAddressScript capability of the WASM SDK (σ is its opaque script type).
Field for field the assembled transaction mirrors the source: version 0,
inputs from the selected UTXOs with empty signature script, sequence 0 and
sigOpCount 1, outputs as described in the module comment, lock time 0, the
all-zero subnetwork id, gas 0 and the payload hex string. -/
def buildEntryTransaction {σ : Type} (pay2addr : String → σ) (utxos : List UtxoEntry)
    (senderAddress entryAddress : String) (amountSompi : ℕ) (l2Address : String)
    (nonce : ℕ) : Except BuildError (KaspaTransaction σ) :=
  match constructEntryPayload l2Address amountSompi nonce with
  | .error e => .error (.invalidPayload e)
  | .ok payload =>
    let payloadHex := payloadToHex payload
    let entryScriptPubKey := pay2addr entryAddress
    let senderScriptPubKey := pay2addr senderAddress
    let sel := selectLoop (amountSompi + feeBuffer) 0 utxos
    if sel.2 < amountSompi then
      .error (.insufficientFunds sel.2 amountSompi)
    else
      let inputs := sel.1.map fun u =>
        { previousTransactionId := u.transactionId
        , previousIndex := u.index
        , signatureScript := ""
        , sequence := 0
        , sigOpCount := 1
        , utxo := u : TxInput }
      let change : ℤ := (sel.2 : ℤ) - (amountSompi : ℤ) - (estimatedFee : ℤ)
      let outputs : List (TxOutput σ) :=
        if 0 < change then
          [{ value := (amountSompi : ℤ), scriptPublicKey := entryScriptPubKey },
           { value := change, scriptPublicKey := senderScriptPubKey }]
        else
          [{ value := (amountSompi : ℤ), scriptPublicKey := entryScriptPubKey }]
      .ok { version := 0
          , inputs := inputs
          , outputs := outputs
          , lockTime := 0
          , subnetworkId := "0000000000000000000000000000000000000000"
          , gas := 0
          , payload := payloadHex }

/-! ## Selection lemmas -/

lemma selectLoop_prefixOf (target : ℕ) :
    ∀ (l : List UtxoEntry) (total : ℕ), (selectLoop target total l).1 <+: l := by
  intro l
  induction l with
  | nil => intro total; exact List.nil_prefix
  | cons u rest ih =>
    intro total
    rw [selectLoop]
    split
    · exact ⟨rest, rfl⟩
    · obtain ⟨t, ht⟩ := ih (total + u.amount)
      exact ⟨t, by rw [List.cons_append, ht]⟩

lemma selectLoop_total (target : ℕ) :
    ∀ (l : List UtxoEntry) (total : ℕ),
      (selectLoop target total l).2 = total + sumAmounts (selectLoop target total l).1 := by
  intro l
  induction l with
  | nil => intro total; simp [selectLoop, sumAmounts]
  | cons u rest ih =>
    intro total
    rw [selectLoop]
    split
    · simp [sumAmounts]
    · simp only [sumAmounts, List.map_cons, List.sum_cons]
      rw [ih (total + u.amount)]
      simp [sumAmounts]
      omega

lemma selectLoop_all_of_lt_target (target : ℕ) :
    ∀ (l : List UtxoEntry) (total : ℕ), (selectLoop target total l).2 < target →
      (selectLoop target total l).1 = l := by
  intro l
  induction l with
  | nil => intro total _; rfl
  | cons u rest ih =>
    intro total hlt
    rw [selectLoop] at hlt ⊢
    split at hlt
    · rename_i h
      simp at hlt
      omega
    · rename_i h
      rw [if_neg h]
      show u :: (selectLoop target (total + u.amount) rest).1 = u :: rest
      rw [ih (total + u.amount) hlt]

lemma sumAmounts_prefixOf_le {l₁ l₂ : List UtxoEntry} (h : l₁ <+: l₂) :
    sumAmounts l₁ ≤ sumAmounts l₂ := by
  obtain ⟨t, rfl⟩ := h
  simp only [sumAmounts, List.map_append, List.sum_append]
  omega

lemma selectLoop_le_sum (target : ℕ) (l : List UtxoEntry) (total : ℕ) :
    (selectLoop target total l).2 ≤ total + sumAmounts l := by
  rw [selectLoop_total]
  exact Nat.add_le_add_left (sumAmounts_prefixOf_le (selectLoop_prefixOf target l total)) total

/-- Claim C3 (amended): the selection accumulates UTXOs in the order supplied
(the selected list is a prefix of the input and the reported total is its
amount sum); on success the selected total is at least amount, and it is at
least amount + feeBuffer whenever the loop stopped before exhausting the UTXO
set; when the sum of all available UTXOs is below amount the builder fails
with the insufficient-funds error reporting both the have amount (the sum) and
the need amount.  (As stated the claim fails: when the UTXOs are exhausted
with a total in the interval from amount to amount + feeBuffer, the build
succeeds with a total below amount + feeBuffer; see the counterexample.) -/
theorem C3_selection_amended {σ : Type} (pay2addr : String → σ) (utxos : List UtxoEntry)
    (sender entry : String) (amt : ℕ) (l2a : String) (nonce : ℕ)
    (hpl : (constructEntryPayload l2a amt nonce).isOk = true) :
    (selectLoop (amt + feeBuffer) 0 utxos).1 <+: utxos ∧
    (selectLoop (amt + feeBuffer) 0 utxos).2 =
      sumAmounts (selectLoop (amt + feeBuffer) 0 utxos).1 ∧
    (amt ≤ (selectLoop (amt + feeBuffer) 0 utxos).2 ∨
      buildEntryTransaction pay2addr utxos sender entry amt l2a nonce =
        .error (.insufficientFunds (selectLoop (amt + feeBuffer) 0 utxos).2 amt)) ∧
    ((selectLoop (amt + feeBuffer) 0 utxos).1 = utxos ∨
      amt + feeBuffer ≤ (selectLoop (amt + feeBuffer) 0 utxos).2) ∧
    (sumAmounts utxos < amt →
      buildEntryTransaction pay2addr utxos sender entry amt l2a nonce =
        .error (.insufficientFunds (sumAmounts utxos) amt)) := by
  obtain ⟨pl, hpl'⟩ : ∃ pl, constructEntryPayload l2a amt nonce = .ok pl := by
    cases hc : constructEntryPayload l2a amt nonce with
    | ok v => exact ⟨v, rfl⟩
    | error e => rw [hc] at hpl; simp [Except.isOk, Except.toBool] at hpl
  refine ⟨selectLoop_prefixOf _ _ _, by simpa using selectLoop_total (amt + feeBuffer) utxos 0,
    ?_, ?_, ?_⟩
  · by_cases h : (selectLoop (amt + feeBuffer) 0 utxos).2 < amt
    · right
      simp [buildEntryTransaction, hpl', h]
    · left; omega
  · by_cases h : (selectLoop (amt + feeBuffer) 0 utxos).2 < amt + feeBuffer
    · left; exact selectLoop_all_of_lt_target _ _ _ h
    · right; omega
  · intro hs
    have hle := selectLoop_le_sum (amt + feeBuffer) utxos 0
    have hlt : (selectLoop (amt + feeBuffer) 0 utxos).2 < amt := by omega
    have hall : (selectLoop (amt + feeBuffer) 0 utxos).1 = utxos :=
      selectLoop_all_of_lt_target _ _ _ (by omega)
    have htot : (selectLoop (amt + feeBuffer) 0 utxos).2 = sumAmounts utxos := by
      have := selectLoop_total (amt + feeBuffer) utxos 0
      rw [hall] at this
      omega
    rw [← htot]
    simp [buildEntryTransaction, hpl', hlt]

/-- Witness for claim C3: one UTXO worth 50 sompi cannot cover an amount of
100 sompi, and the builder reports insufficient funds with have 50, need
100. -/
theorem C3_witness :
    buildEntryTransaction (σ := String) id [⟨"u0", 0, 50⟩] "sender" "entry" 100
      "0xaaaaaaaaaaaaaaaaaaaaaaaaaaaaaaaaaaaaaaaa" 1 =
      .error (.insufficientFunds 50 100) :=
  (C3_selection_amended id [⟨"u0", 0, 50⟩] "sender" "entry" 100
    "0xaaaaaaaaaaaaaaaaaaaaaaaaaaaaaaaaaaaaaaaa" 1 (by decide)).2.2.2.2 (by decide)

/-- Counterexample to claim C3 as stated: with a single UTXO worth exactly the
amount, selection exhausts the set at total 100, the build succeeds, yet the
selected total is below amount + feeBuffer. -/
theorem C3_counterexample :
    (selectLoop (100 + feeBuffer) 0 [⟨"u0", 0, 100⟩]).2 = 100 ∧
    ¬ (100 + feeBuffer ≤ (selectLoop (100 + feeBuffer) 0 [⟨"u0", 0, 100⟩]).2) ∧
    (buildEntryTransaction (σ := String) id [⟨"u0", 0, 100⟩] "sender" "entry" 100
      "0xaaaaaaaaaaaaaaaaaaaaaaaaaaaaaaaaaaaaaaaa" 1).isOk = true :=
  ⟨by decide, by decide, by decide⟩

/-- Claim C6: in every candidate transaction the builder returns, output 0
pays the Entry address exactly amountSompi, and a change output back to the
sender exists exactly when change = total - amount - estimatedFee is positive,
in which case it is output 1 with value equal to that change. -/
theorem C6_output_ordering {σ : Type} (pay2addr : String → σ) (utxos : List UtxoEntry)
    (sender entry : String) (amt : ℕ) (l2a : String) (nonce : ℕ)
    (hok : (buildEntryTransaction pay2addr utxos sender entry amt l2a nonce).isOk = true) :
    ((0 : ℤ) < ((selectLoop (amt + feeBuffer) 0 utxos).2 : ℤ) - (amt : ℤ) - (estimatedFee : ℤ) →
      (buildEntryTransaction pay2addr utxos sender entry amt l2a nonce).map
          (fun tx => tx.outputs) =
        .ok [⟨(amt : ℤ), pay2addr entry⟩,
             ⟨((selectLoop (amt + feeBuffer) 0 utxos).2 : ℤ) - (amt : ℤ) - (estimatedFee : ℤ),
              pay2addr sender⟩]) ∧
    (((selectLoop (amt + feeBuffer) 0 utxos).2 : ℤ) - (amt : ℤ) - (estimatedFee : ℤ) ≤ 0 →
      (buildEntryTransaction pay2addr utxos sender entry amt l2a nonce).map
          (fun tx => tx.outputs) =
        .ok [⟨(amt : ℤ), pay2addr entry⟩]) := by
  cases hc : constructEntryPayload l2a amt nonce with
  | error e => simp [buildEntryTransaction, hc, Except.isOk, Except.toBool] at hok
  | ok pl =>
    by_cases hins : (selectLoop (amt + feeBuffer) 0 utxos).2 < amt
    · simp [buildEntryTransaction, hc, hins, Except.isOk, Except.toBool] at hok
    · constructor
      · intro hch
        simp [buildEntryTransaction, hc, hins, hch, Except.map]
      · intro hch
        simp [buildEntryTransaction, hc, hins, not_lt.mpr hch, Except.map]

/-- Witness for claim C6: one 200020000-sompi UTXO funding a 100000000-sompi
bridge leaves change 100010000, so the outputs are the Entry output followed
by the change output. -/
theorem C6_witness :
    (buildEntryTransaction (σ := String) id [⟨"u0", 0, 200020000⟩] "sender" "entry" 100000000
        "0xaaaaaaaaaaaaaaaaaaaaaaaaaaaaaaaaaaaaaaaa" 1).map (fun tx => tx.outputs) =
      .ok [⟨(100000000 : ℤ), "entry"⟩, ⟨(100010000 : ℤ), "sender"⟩] :=
  (C6_output_ordering id [⟨"u0", 0, 200020000⟩] "sender" "entry" 100000000
    "0xaaaaaaaaaaaaaaaaaaaaaaaaaaaaaaaaaaaaaaaa" 1 (by decide)).1 (by decide)

/-! ## Nonce miner (src: tx-miner module)

mineTxId loops i from 0 to MAX_NONCE_ITERATIONS - 1: build a candidate with
the current nonce, read its canonical id, report progress when i is a multiple
of PROGRESS_INTERVAL and a callback was supplied, return on a prefix match,
otherwise increment the nonce with (nonce + 1) >>> 0 (wraparound at 2^32).
The candidate construction and the canonical-id computation are the external
WASM collaborators, so they are the parameters buildOf and idOf; the optional
progress callback is modeled by the flag hasCb together with the list of
(iteration, txId) events the loop emits to it. -/

/-- CONFIG.L1.TX_ID_PREFIX: the required leading hex characters of the mined
transaction id. -/
def TX_ID_PREFIX_L1 : String := "97b4"

/-- CONFIG.MINING.MAX_NONCE_ITERATIONS. -/
def MAX_NONCE_ITERATIONS : ℕ := 10000000

/-- CONFIG.MINING.PROGRESS_INTERVAL. -/
def PROGRESS_INTERVAL : ℕ := 100000

/-- ASCII lowercasing of one character, the behavior of the source
toLowerCase() on the hex transaction ids it is applied to. -/
def toLowerChar (c : Char) : Char :=
  if 'A' ≤ c ∧ c ≤ 'Z' then Char.ofNat (c.toNat + 32) else c

/-- Source matchesPrefix: case-insensitive comparison of the leading
characters of the transaction id against the required characters
(txId.toLowerCase().startsWith(required.toLowerCase())). -/
def prefixMatches (txId req : String) : Bool :=
  (req.data.map toLowerChar).isPrefixOf (txId.data.map toLowerChar)

/-- A successful mining result: the winning candidate transaction, its id,
the winning nonce and the number of iterations used (i + 1 when the match
happened at loop index i). -/
structure MiningFound (α : Type) where
  tx : α
  txId : String
  nonce : ℕ
  iterations : ℕ
deriving DecidableEq

/-- Mining failure: the final throw reports the configured bound. -/
inductive MineError where
  | miningTimeout (attempted : ℕ)
deriving DecidableEq

/-- The mining loop.  fuel is the number of loop indices still allowed
(initially MAX_NONCE_ITERATIONS), i the current index, nonce the current
nonce.  Besides the result it returns the events emitted to the progress
callback, which exists iff hasCb. -/
def mineLoopEv {α : Type} (buildOf : ℕ → α) (idOf : α → String) (hasCb : Bool) :
    ℕ → ℕ → ℕ → Option (MiningFound α) × List (ℕ × String)
  | _, _, 0 => (none, [])
  | nonce, i, fuel + 1 =>
    let tx := buildOf nonce
    let txId := idOf tx
    let evs := if hasCb ∧ i % PROGRESS_INTERVAL = 0 then [(i, txId)] else []
    if prefixMatches txId TX_ID_PREFIX_L1 then (some ⟨tx, txId, nonce, i + 1⟩, evs)
    else
      let r := mineLoopEv buildOf idOf hasCb ((nonce + 1) % 2 ^ 32) (i + 1) fuel
      (r.1, evs ++ r.2)

/-- Source mineTxId: start at the supplied nonce, run the loop for at most
MAX_NONCE_ITERATIONS candidates, and on exhaustion throw the mining-timeout
error reporting the bound. -/
def mineTxId {α : Type} (buildOf : ℕ → α) (idOf : α → String) (hasCb : Bool)
    (startNonce : ℕ) : Except MineError (MiningFound α) × List (ℕ × String) :=
  let r := mineLoopEv buildOf idOf hasCb startNonce 0 MAX_NONCE_ITERATIONS
  (match r.1 with
   | some res => .ok res
   | none => .error (.miningTimeout MAX_NONCE_ITERATIONS), r.2)

/-! ## Miner lemmas -/

lemma mineLoopEv_none {α : Type} (buildOf : ℕ → α) (idOf : α → String) (hasCb : Bool) :
    ∀ (fuel nonce i : ℕ), nonce < 2 ^ 32 →
      (∀ j < fuel, prefixMatches (idOf (buildOf ((nonce + j) % 2 ^ 32))) TX_ID_PREFIX_L1 = false) →
      (mineLoopEv buildOf idOf hasCb nonce i fuel).1 = none := by
  intro fuel
  induction fuel with
  | zero => intro nonce i _ _; rfl
  | succ fuel ih =>
    intro nonce i hn hnone
    have h0 : prefixMatches (idOf (buildOf nonce)) TX_ID_PREFIX_L1 = false := by
      have := hnone 0 (Nat.succ_pos fuel)
      rwa [Nat.add_zero, Nat.mod_eq_of_lt hn] at this
    rw [mineLoopEv]
    simp only [h0, Bool.false_eq_true, if_false]
    apply ih ((nonce + 1) % 2 ^ 32) (i + 1) (Nat.mod_lt _ (by norm_num))
    intro j hj
    rw [show ((nonce + 1) % 2 ^ 32 + j) % 2 ^ 32 = (nonce + (j + 1)) % 2 ^ 32 by
      rw [Nat.mod_add_mod]; omega]
    exact hnone (j + 1) (by omega)

lemma mineLoopEv_some {α : Type} (buildOf : ℕ → α) (idOf : α → String) (hasCb : Bool) :
    ∀ (fuel j nonce i : ℕ), nonce < 2 ^ 32 → j < fuel →
      prefixMatches (idOf (buildOf ((nonce + j) % 2 ^ 32))) TX_ID_PREFIX_L1 = true →
      (∀ k < j, prefixMatches (idOf (buildOf ((nonce + k) % 2 ^ 32))) TX_ID_PREFIX_L1 = false) →
      (mineLoopEv buildOf idOf hasCb nonce i fuel).1 =
        some ⟨buildOf ((nonce + j) % 2 ^ 32), idOf (buildOf ((nonce + j) % 2 ^ 32)),
          (nonce + j) % 2 ^ 32, i + j + 1⟩ := by
  intro fuel
  induction fuel with
  | zero => intro j nonce i _ hj; omega
  | succ fuel ih =>
    intro j nonce i hn hj hmatch hbefore
    rcases Nat.eq_zero_or_pos j with rfl | hjpos
    · have hn0 : (nonce + 0) % 2 ^ 32 = nonce := by omega
      rw [hn0] at hmatch ⊢
      rw [mineLoopEv]
      simp [hmatch]
    · have h0 : prefixMatches (idOf (buildOf nonce)) TX_ID_PREFIX_L1 = false := by
        have hb := hbefore 0 hjpos
        rwa [Nat.add_zero, Nat.mod_eq_of_lt hn] at hb
      rw [mineLoopEv]
      simp only [h0, Bool.false_eq_true, if_false]
      have hshift : ∀ m : ℕ, ((nonce + 1) % 2 ^ 32 + m) % 2 ^ 32 = (nonce + m + 1) % 2 ^ 32 := by
        intro m
        rw [Nat.mod_add_mod, show nonce + 1 + m = nonce + m + 1 by omega]
      have hrec := ih (j - 1) ((nonce + 1) % 2 ^ 32) (i + 1) (Nat.mod_lt _ (by norm_num))
        (by omega)
        (by rw [hshift (j - 1), show nonce + (j - 1) + 1 = nonce + j by omega]; exact hmatch)
        (fun k hk => by
          rw [hshift k, show nonce + k + 1 = nonce + (k + 1) by omega]
          exact hbefore (k + 1) (by omega))
      rw [hrec, hshift (j - 1), show nonce + (j - 1) + 1 = nonce + j by omega,
        show i + 1 + (j - 1) + 1 = i + j + 1 by omega]

lemma mineLoopEv_fst_cb_irrel {α : Type} (buildOf : ℕ → α) (idOf : α → String) (cb : Bool) :
    ∀ (fuel nonce i : ℕ),
      (mineLoopEv buildOf idOf cb nonce i fuel).1 =
        (mineLoopEv buildOf idOf false nonce i fuel).1 := by
  intro fuel
  induction fuel with
  | zero => intro nonce i; rfl
  | succ fuel ih =>
    intro nonce i
    rw [mineLoopEv, mineLoopEv]
    split
    · rfl
    · simp only
      exact ih ((nonce + 1) % 2 ^ 32) (i + 1)

lemma mineLoopEv_events_false {α : Type} (buildOf : ℕ → α) (idOf : α → String) :
    ∀ (fuel nonce i : ℕ), (mineLoopEv buildOf idOf false nonce i fuel).2 = [] := by
  intro fuel
  induction fuel with
  | zero => intro nonce i; rfl
  | succ fuel ih =>
    intro nonce i
    rw [mineLoopEv]
    simp only [Bool.false_eq_true, false_and, if_false]
    split
    · rfl
    · exact ih _ _

lemma mineLoopEv_events_mod {α : Type} (buildOf : ℕ → α) (idOf : α → String) (cb : Bool) :
    ∀ (fuel nonce i : ℕ),
      ∀ ev ∈ (mineLoopEv buildOf idOf cb nonce i fuel).2, ev.1 % PROGRESS_INTERVAL = 0 := by
  intro fuel
  induction fuel with
  | zero =>
    intro nonce i ev hev
    simp [mineLoopEv] at hev
  | succ fuel ih =>
    intro nonce i ev hev
    rw [mineLoopEv] at hev
    split at hev
    · split at hev
      · rename_i hguard
        simp only [List.mem_singleton] at hev
        rw [hev]
        exact hguard.2
      · simp at hev
    · simp only [List.mem_append] at hev
      rcases hev with hev | hev
      · split at hev
        · rename_i hguard
          simp only [List.mem_singleton] at hev
          rw [hev]
          exact hguard.2
        · simp at hev
      · exact ih ((nonce + 1) % 2 ^ 32) (i + 1) ev hev

/-- Claim C4: the miner builds at most MAX_NONCE_ITERATIONS = 10000000
candidates; if none of the first MAX_NONCE_ITERATIONS candidate ids matches
the required leading characters it fails with the mining-timeout error
reporting that bound, and otherwise it returns the first matching candidate,
whose iteration count is j + 1 for the first matching loop index j and whose
nonce is (start + j) mod 2^32, that is start + (iterations - 1) wrapped at
2^32 and never a signed overflow. -/
theorem C4_mining_bound {α : Type} (buildOf : ℕ → α) (idOf : α → String) (start : ℕ)
    (hs : start < 2 ^ 32) :
    ((∀ j < MAX_NONCE_ITERATIONS,
        prefixMatches (idOf (buildOf ((start + j) % 2 ^ 32))) TX_ID_PREFIX_L1 = false) →
      ∀ cb, (mineTxId buildOf idOf cb start).1 =
        .error (.miningTimeout MAX_NONCE_ITERATIONS)) ∧
    (∀ j, j < MAX_NONCE_ITERATIONS →
      prefixMatches (idOf (buildOf ((start + j) % 2 ^ 32))) TX_ID_PREFIX_L1 = true →
      (∀ k < j, prefixMatches (idOf (buildOf ((start + k) % 2 ^ 32))) TX_ID_PREFIX_L1 = false) →
      ∀ cb, (mineTxId buildOf idOf cb start).1 =
        .ok ⟨buildOf ((start + j) % 2 ^ 32), idOf (buildOf ((start + j) % 2 ^ 32)),
          (start + j) % 2 ^ 32, j + 1⟩) := by
  constructor
  · intro hnone cb
    have h := mineLoopEv_none buildOf idOf cb MAX_NONCE_ITERATIONS start 0 hs hnone
    simp [mineTxId, h]
  · intro j hj hmatch hbefore cb
    have h := mineLoopEv_some buildOf idOf cb MAX_NONCE_ITERATIONS j start 0 hs hj hmatch hbefore
    simp [mineTxId, h]

/-- Witness for claim C4 with the stubbed identifier schedule suggested by the
specification (a match exactly when the nonce is divisible by 7, written
uppercase to exercise the case-insensitive comparison): starting at nonce 3,
the first match is at loop index 4, so the result is nonce 7 after 5
iterations. -/
theorem C4_witness :
    (3 : ℕ) < 2 ^ 32 ∧
    (mineTxId (fun n : ℕ => n) (fun n => if n % 7 = 0 then "97B4FF" else "ffffff") true 3).1 =
      .ok ⟨7, "97B4FF", 7, 5⟩ :=
  ⟨by decide,
    by
      have h := (C4_mining_bound (fun n : ℕ => n)
        (fun n => if n % 7 = 0 then "97B4FF" else "ffffff") 3 (by decide)).2 4 (by decide)
        (by decide) (by decide) true
      simpa using h⟩

/-- Claim C9: the progress callback is purely observational: the miner emits
events only at loop indices that are multiples of PROGRESS_INTERVAL (no events
at all when no callback is supplied), and the mining result is identical to
the run without a callback. -/
theorem C9_callback_observational {α : Type} (buildOf : ℕ → α) (idOf : α → String)
    (start : ℕ) (cb : Bool) :
    (mineTxId buildOf idOf cb start).1 = (mineTxId buildOf idOf false start).1 ∧
    (mineTxId buildOf idOf false start).2 = [] ∧
    ∀ ev ∈ (mineTxId buildOf idOf cb start).2, ev.1 % PROGRESS_INTERVAL = 0 := by
  refine ⟨?_, ?_, ?_⟩
  · simp only [mineTxId]
    rw [mineLoopEv_fst_cb_irrel]
  · simp only [mineTxId]
    exact mineLoopEv_events_false buildOf idOf MAX_NONCE_ITERATIONS start 0
  · simp only [mineTxId]
    exact mineLoopEv_events_mod buildOf idOf cb MAX_NONCE_ITERATIONS start 0

/-- Witness for claim C9 with a stub identifier that matches immediately: the
results with and without callback agree, the no-callback run emits nothing,
and the event emitted at index 0 is at a multiple of the interval. -/
theorem C9_witness :
    (mineTxId (fun n : ℕ => n) (fun _ => "97b4ff") true 5).1 =
      (mineTxId (fun n : ℕ => n) (fun _ => "97b4ff") false 5).1 ∧
    (mineTxId (fun n : ℕ => n) (fun _ => "97b4ff") false 5).2 = [] ∧
    (0 : ℕ) % PROGRESS_INTERVAL = 0 :=
  have h := C9_callback_observational (fun n : ℕ => n) (fun _ => "97b4ff") 5 true
  ⟨h.1, h.2.1, h.2.2 (0, "97b4ff") (by decide)⟩

/-! ## Orchestrator reporting (src: bridge module, executeBridgeWithMining)

After the external signer has signed and broadcast the mined transaction, the
orchestrator compares the broadcast id against the required leading characters
and emits either a verification message or two warning messages to the
optional progress callback; the BridgeResult it returns carries the broadcast
id, amount, L2 address and the mining nonce and iteration count, with no
field recording the mismatch. -/

/-- The record executeBridgeWithMining returns to its caller. -/
structure BridgeResult where
  txId : String
  amountSompi : ℕ
  l2Address : String
  nonce : ℕ
  iterations : ℕ
deriving DecidableEq

/-- The tail of executeBridgeWithMining, from the broadcast id onward: the
progress messages (paraphrased in ASCII) and the returned record.  The slice
of the broadcast id and the lowercasing mirror the source comparison. -/
def finalizeBridge {α : Type} (amountSompi : ℕ) (l2Address : String) (mr : MiningFound α)
    (broadcastTxId : String) : BridgeResult × List String :=
  let expected := TX_ID_PREFIX_L1.data.map toLowerChar
  let actual := (broadcastTxId.data.take expected.length).map toLowerChar
  let res : BridgeResult :=
    { txId := broadcastTxId, amountSompi := amountSompi, l2Address := l2Address,
      nonce := mr.nonce, iterations := mr.iterations }
  let msgs :=
    if actual ≠ expected then
      ["Transaction submitted: " ++ broadcastTxId,
       "Warning: Broadcast TX ID differs from mined TX ID",
       "This can happen if UTXOs changed during signing."]
    else
      ["Transaction submitted: " ++ broadcastTxId,
       "TX ID prefix verified: " ++ String.mk actual]
  (res, msgs)

/-- Claim C8 (amended): the broadcast-mismatch condition is surfaced only
through the progress messages: the warning appears exactly when the lowercased
4-character head of the broadcast id differs from the required one, while the
BridgeResult returned to the caller is the same record
(broadcast id, amount, address, nonce, iterations) in both cases, with no
distinct degraded-success field.  (As stated the claim fails: no two signer
behaviors make the returned outcomes differ in more than the txId field; see
the counterexample.) -/
theorem C8_reporting_amended {α : Type} (a : ℕ) (l : String) (mr : MiningFound α)
    (bid : String) :
    (finalizeBridge a l mr bid).1 = ⟨bid, a, l, mr.nonce, mr.iterations⟩ ∧
    ((bid.data.take 4).map toLowerChar ≠ ['9', '7', 'b', '4'] →
      (finalizeBridge a l mr bid).2 =
        ["Transaction submitted: " ++ bid,
         "Warning: Broadcast TX ID differs from mined TX ID",
         "This can happen if UTXOs changed during signing."]) ∧
    ((bid.data.take 4).map toLowerChar = ['9', '7', 'b', '4'] →
      (finalizeBridge a l mr bid).2 =
        ["Transaction submitted: " ++ bid,
         "TX ID prefix verified: " ++ String.mk ((bid.data.take 4).map toLowerChar)]) := by
  have he : TX_ID_PREFIX_L1.data.map toLowerChar = ['9', '7', 'b', '4'] := by decide
  refine ⟨rfl, ?_, ?_⟩ <;> intro h <;> simp only [List.map_take] at h <;>
    simp [finalizeBridge, he, h]

/-- Witness for claim C8 at a mismatching broadcast id. -/
theorem C8_witness :
    (finalizeBridge 5 "l2" (⟨(), "t", 2, 3⟩ : MiningFound Unit) "deadbeef").1 =
      ⟨"deadbeef", 5, "l2", 2, 3⟩ ∧
    (finalizeBridge 5 "l2" (⟨(), "t", 2, 3⟩ : MiningFound Unit) "deadbeef").2 =
      ["Transaction submitted: " ++ "deadbeef",
       "Warning: Broadcast TX ID differs from mined TX ID",
       "This can happen if UTXOs changed during signing."] :=
  have h := C8_reporting_amended 5 "l2" (⟨(), "t", 2, 3⟩ : MiningFound Unit) "deadbeef"
  ⟨h.1, h.2.1 (by decide)⟩

/-- Counterexample to claim C8 as stated: a matching and a non-matching signer
behavior produce returned outcomes that differ only in the txId field, so no
distinct degraded-success outcome reaches the caller. -/
theorem C8_counterexample :
    (finalizeBridge 100 "0xl2" (⟨(), "97b4aa", 7, 3⟩ : MiningFound Unit) "97b4ffff").1.amountSompi =
      (finalizeBridge 100 "0xl2" (⟨(), "97b4aa", 7, 3⟩ : MiningFound Unit) "deadbeef").1.amountSompi ∧
    (finalizeBridge 100 "0xl2" (⟨(), "97b4aa", 7, 3⟩ : MiningFound Unit) "97b4ffff").1.l2Address =
      (finalizeBridge 100 "0xl2" (⟨(), "97b4aa", 7, 3⟩ : MiningFound Unit) "deadbeef").1.l2Address ∧
    (finalizeBridge 100 "0xl2" (⟨(), "97b4aa", 7, 3⟩ : MiningFound Unit) "97b4ffff").1.nonce =
      (finalizeBridge 100 "0xl2" (⟨(), "97b4aa", 7, 3⟩ : MiningFound Unit) "deadbeef").1.nonce ∧
    (finalizeBridge 100 "0xl2" (⟨(), "97b4aa", 7, 3⟩ : MiningFound Unit) "97b4ffff").1.iterations =
      (finalizeBridge 100 "0xl2" (⟨(), "97b4aa", 7, 3⟩ : MiningFound Unit) "deadbeef").1.iterations ∧
    (finalizeBridge 100 "0xl2" (⟨(), "97b4aa", 7, 3⟩ : MiningFound Unit) "97b4ffff").1.txId ≠
      (finalizeBridge 100 "0xl2" (⟨(), "97b4aa", 7, 3⟩ : MiningFound Unit) "deadbeef").1.txId ∧
    prefixMatches "97b4ffff" TX_ID_PREFIX_L1 = true ∧
    prefixMatches "deadbeef" TX_ID_PREFIX_L1 = false :=
  ⟨by decide, by decide, by decide, by decide, by decide, by decide, by decide⟩

/-! ## Starting nonce (src: bridge module, generateRandomNonce) -/

/-- Source generateRandomNonce: Math.floor(Math.random() * 0xFFFFFFFF).  The
parameter r models the value the Math.random() draw returns, a number in
[0, 1); the multiplication is modeled exactly (for every double below 1 the
rounded product stays below 0xFFFFFFFF - 1/2, so the floor values coincide
with the source). -/
def generateRandomNonce (r : ℚ) : ℕ :=
  (⌊r * 4294967295⌋).toNat

/-- Claim C7 (amended): for every outcome of the randomness source the
starting nonce is at most 2^32 - 2: it fits in 32 bits but never covers
0xFFFFFFFF, so the draw is over [0, 2^32 - 2], not uniform over all 32-bit
values, and it can be zero (see the counterexample), contrary to the claimed
never-zero initialization. -/
theorem C7_nonce_range (r : ℚ) (h0 : 0 ≤ r) (h1 : r < 1) :
    generateRandomNonce r ≤ 2 ^ 32 - 2 := by
  unfold generateRandomNonce
  have hlt : r * 4294967295 < ((4294967295 : ℤ) : ℚ) := by
    push_cast
    nlinarith [h0, h1]
  have h2 : ⌊r * 4294967295⌋ < 4294967295 := Int.floor_lt.mpr hlt
  omega

/-- Counterexample to claim C7 as stated: the randomness outcome 0 is possible
(Math.random() has range [0, 1)) and yields starting nonce 0, so the nonce is
not never-zero. -/
theorem C7_counterexample :
    (0 : ℚ) ≤ 0 ∧ (0 : ℚ) < 1 ∧ generateRandomNonce 0 = 0 := by
  refine ⟨le_refl 0, by norm_num, ?_⟩
  unfold generateRandomNonce
  norm_num

/-- Witness for claim C7 at the randomness outcome one half. -/
theorem C7_witness :
    (0 : ℚ) ≤ 1 / 2 ∧ (1 / 2 : ℚ) < 1 ∧ generateRandomNonce (1 / 2) ≤ 2 ^ 32 - 2 :=
  ⟨by norm_num, by norm_num, C7_nonce_range (1 / 2) (by norm_num) (by norm_num)⟩

/-! ## Display-amount conversion (src: config module, kasToSompi)

The source computes BigInt(Math.floor(kas * Number(CONFIG.L1.SOMPI_PER_KAS)))
where kas is the IEEE-754 binary64 number holding the user-entered amount.
Number(100000000n) is exactly representable, Math.floor is exact on doubles
and BigInt conversion is exact, so the only rounding is the binary64
round-to-nearest-even of the product, modeled by round64 below (values stay
well inside the normal range, so overflow and subnormals do not arise). -/

/-- Round a rational to the nearest integer, ties to even. -/
def roundTE (x : ℚ) : ℤ :=
  let f := ⌊x⌋
  if x - f < 1 / 2 then f
  else if 1 / 2 < x - f then f + 1
  else if f % 2 = 0 then f else f + 1

/-- IEEE-754 binary64 rounding of a rational to 53 significant bits
(round to nearest, ties to even), for inputs in the normal range. -/
def round64 (q : ℚ) : ℚ :=
  if q = 0 then 0
  else
    let k : ℤ := Int.log 2 |q|
    let m : ℤ := roundTE (|q| * 2 ^ ((52 : ℤ) - k))
    (if q < 0 then -1 else 1) * ((m : ℚ) * 2 ^ (k - 52))

/-- CONFIG.L1.SOMPI_PER_KAS: 10^8 smallest units per display unit. -/
def SOMPI_PER_KAS : ℕ := 100000000

/-- Source kasToSompi on the double kas: floor of the rounded double
product. -/
def kasToSompi (kas : ℚ) : ℤ :=
  ⌊round64 (kas * ((SOMPI_PER_KAS : ℕ) : ℚ))⌋

/-! ## Rounding lemmas -/

lemma roundTE_intCast (m : ℤ) : roundTE ((m : ℚ)) = m := by
  unfold roundTE
  rw [Int.floor_intCast]
  norm_num

lemma round64_pos (q : ℚ) (hq : 0 < q) :
    round64 q =
      ((roundTE (q * 2 ^ ((52 : ℤ) - Int.log 2 q)) : ℤ) : ℚ) * 2 ^ (Int.log 2 q - 52) := by
  simp only [round64]
  rw [if_neg hq.ne', abs_of_pos hq, if_neg (not_lt.mpr hq.le), one_mul]

lemma round64_eq_self {q : ℚ} (hq : 0 < q) (m : ℤ)
    (hm : q * 2 ^ ((52 : ℤ) - Int.log 2 q) = (m : ℚ)) : round64 q = q := by
  rw [round64_pos q hq, hm, roundTE_intCast, ← hm]
  have h2 : (2 : ℚ) ^ ((52 : ℤ) - Int.log 2 q) * (2 : ℚ) ^ (Int.log 2 q - 52) = 1 := by
    rw [← zpow_add₀ (by norm_num : (2 : ℚ) ≠ 0),
      show (52 : ℤ) - Int.log 2 q + (Int.log 2 q - 52) = 0 by ring]
    exact zpow_zero 2
  rw [mul_assoc, h2, mul_one]

lemma Int_log2_eq_of {q : ℚ} {k : ℤ} (hq : 0 < q) (h₁ : (2 : ℚ) ^ k ≤ q)
    (h₂ : q < (2 : ℚ) ^ (k + 1)) : Int.log 2 q = k := by
  have h1' : ((2 : ℕ) : ℚ) ^ k ≤ q := by exact_mod_cast h₁
  have h2' : q < ((2 : ℕ) : ℚ) ^ (k + 1) := by exact_mod_cast h₂
  have ha := (Int.zpow_le_iff_le_log (by norm_num) hq).mp h1'
  have hb := (Int.lt_zpow_iff_log_lt (by norm_num) hq).mp h2'
  omega

lemma Int_log_natCast_le {n : ℕ} (h1 : 0 < n) (h2 : n < 2 ^ 53) :
    Int.log 2 ((n : ℚ)) ≤ 52 := by
  rw [Int.log_natCast]
  have := Nat.log_lt_of_lt_pow (b := 2) (by omega : n ≠ 0) h2
  omega

lemma natCast_dyadic {n : ℕ} (hk : Int.log 2 ((n : ℚ)) ≤ 52) :
    ∃ m : ℤ, (n : ℚ) * 2 ^ ((52 : ℤ) - Int.log 2 ((n : ℚ))) = (m : ℚ) := by
  set e := (52 - Int.log 2 ((n : ℚ))).toNat with hedef
  refine ⟨(n : ℤ) * 2 ^ e, ?_⟩
  have he : ((52 : ℤ) - Int.log 2 ((n : ℚ))) = (e : ℤ) := by omega
  rw [he, zpow_natCast]
  push_cast
  ring

/-- Claim C5 (amended): the conversion of the display amount to base units is
exact for whole-KAS amounts up to 9 * 10^7: such an amount and its 10^8-fold
product are both exactly representable in binary64, so kasToSompi returns
exactly amount times 10^8.  (For fractional amounts the conversion rounds and
can be off by one smallest unit; see the counterexample.) -/
theorem C5_exact_integer_amounts (n : ℕ) (h1 : 1 ≤ n) (h2 : n ≤ 90000000) :
    round64 ((n : ℚ)) = (n : ℚ) ∧ kasToSompi ((n : ℚ)) = (n : ℤ) * 100000000 := by
  have hr1 : round64 ((n : ℚ)) = (n : ℚ) := by
    have hpos : (0 : ℚ) < (n : ℚ) := by exact_mod_cast h1
    have hk := Int_log_natCast_le (n := n) (by omega) (by omega)
    obtain ⟨m, hm⟩ := natCast_dyadic hk
    exact round64_eq_self hpos m hm
  refine ⟨hr1, ?_⟩
  have hcast : ((n : ℚ)) * ((SOMPI_PER_KAS : ℕ) : ℚ) = ((n * 100000000 : ℕ) : ℚ) := by
    rw [SOMPI_PER_KAS]
    push_cast
    ring
  rw [kasToSompi, hcast]
  have hpos : (0 : ℚ) < ((n * 100000000 : ℕ) : ℚ) := by
    have : 0 < n * 100000000 := by omega
    exact_mod_cast this
  have hk := Int_log_natCast_le (n := n * 100000000) (by omega) (by omega)
  obtain ⟨m, hm⟩ := natCast_dyadic hk
  rw [round64_eq_self hpos m hm, Int.floor_natCast]
  push_cast
  ring

/-- Witness for claim C5 at the documented 20 KAS example: exactly 2000000000
sompi. -/
theorem C5_witness :
    1 ≤ 20 ∧ 20 ≤ 90000000 ∧
    (round64 ((20 : ℕ) : ℚ) = ((20 : ℕ) : ℚ) ∧
      kasToSompi ((20 : ℕ) : ℚ) = ((20 : ℕ) : ℤ) * 100000000) :=
  ⟨by decide, by decide, C5_exact_integer_amounts 20 (by decide) (by decide)⟩

/-- Counterexample to claim C5 as stated: the display amount 1.00000005 KAS
(at most 8 decimal places, above the 1 KAS minimum) parses to the double
4503599852550477 / 2^52; converting it multiplies by 10^8 in doubles and
floors, giving 100000004 sompi instead of the exact 100000005, so a
floating-point rounding error does reach the payload encoder. -/
theorem C5_counterexample :
    (1 : ℚ) ≤ (100000005 : ℚ) / 100000000 ∧
    round64 ((100000005 : ℚ) / 100000000) = 4503599852550477 / 2 ^ 52 ∧
    kasToSompi ((4503599852550477 : ℚ) / 2 ^ 52) = 100000004 ∧
    (100000004 : ℤ) ≠ 100000005 := by
  refine ⟨by norm_num, ?_, ?_, by norm_num⟩
  · have hq : (0 : ℚ) < 100000005 / 100000000 := by norm_num
    have hlog : Int.log 2 ((100000005 : ℚ) / 100000000) = 0 :=
      Int_log2_eq_of hq (by norm_num) (by norm_num)
    rw [round64_pos _ hq, hlog]
    have hx : (100000005 : ℚ) / 100000000 * 2 ^ ((52 : ℤ) - 0) =
        450359985255047736852480 / 100000000 := by
      norm_num
    rw [hx]
    have hfloor : ⌊(450359985255047736852480 : ℚ) / 100000000⌋ = 4503599852550477 :=
      Int.floor_eq_iff.mpr ⟨by norm_num, by norm_num⟩
    have hrTE : roundTE ((450359985255047736852480 : ℚ) / 100000000) = 4503599852550477 := by
      unfold roundTE
      rw [hfloor, if_pos (by norm_num)]
    rw [hrTE]
    norm_num
  · have hq2 : (4503599852550477 : ℚ) / 2 ^ 52 * ((SOMPI_PER_KAS : ℕ) : ℚ) =
        1759218692402530078125 / 17592186044416 := by
      rw [SOMPI_PER_KAS]
      norm_num
    have hpos2 : (0 : ℚ) < 1759218692402530078125 / 17592186044416 := by norm_num
    have hlog2 : Int.log 2 ((1759218692402530078125 : ℚ) / 17592186044416) = 26 :=
      Int_log2_eq_of hpos2 (by norm_num) (by norm_num)
    rw [kasToSompi, hq2, round64_pos _ hpos2, hlog2]
    have hx2 : (1759218692402530078125 : ℚ) / 17592186044416 * 2 ^ ((52 : ℤ) - 26) =
        1759218692402530078125 / 262144 := by
      norm_num
    rw [hx2]
    have hfloor2 : ⌊(1759218692402530078125 : ℚ) / 262144⌋ = 6710886735544319 :=
      Int.floor_eq_iff.mpr ⟨by norm_num, by norm_num⟩
    have hrTE2 : roundTE ((1759218692402530078125 : ℚ) / 262144) = 6710886735544319 := by
      unfold roundTE
      rw [hfloor2, if_pos (by norm_num)]
    rw [hrTE2]
    have hv : ((6710886735544319 : ℤ) : ℚ) * 2 ^ ((26 : ℤ) - 52) =
        (6710886735544319 : ℚ) / 67108864 := by
      push_cast
      norm_num
    rw [hv]
    exact Int.floor_eq_iff.mpr ⟨by norm_num, by norm_num⟩
